import Mathlib

/-!
Shallow embedding of `src/sha256_reference.py` (a pure-Python SHA-256
reference implementation, NIST FIPS 180-4) and verification of its
specification claims.

Bytes are modelled as `Nat` (values `< 256` in every reachable state),
32-bit words as `Nat` reduced modulo `2 ^ 32` exactly where the Python
code applies `& 0xffffffff`, and the fallible `struct.pack('>Q', n)`
(which raises for `n ≥ 2 ^ 64`) as an `Option`-returning encoder, so the
top-level hash is `List Nat → Option String`.
-/

namespace SHA256

/-- Right rotate a 32-bit integer by `b` bits
(`_rightrotate`, src/sha256_reference.py lines 14-16):
`((n >> b) | (n << (32 - b))) & 0xffffffff`. -/
def rightrotate (n b : Nat) : Nat :=
  ((n >>> b) ||| (n <<< (32 - b))) % 2 ^ 32

/-- The SHA-256 round constants `K` (src lines 25-34), written here as the
concatenation of the source table's eight rows. -/
def K : List Nat :=
  [0x428a2f98, 0x71374491, 0xb5c0fbcf, 0xe9b5dba5, 0x3956c25b, 0x59f111f1, 0x923f82a4, 0xab1c5ed5]
  ++ [0xd807aa98, 0x12835b01, 0x243185be, 0x550c7dc3, 0x72be5d74, 0x80deb1fe, 0x9bdc06a7, 0xc19bf174]
  ++ [0xe49b69c1, 0xefbe4786, 0x0fc19dc6, 0x240ca1cc, 0x2de92c6f, 0x4a7484aa, 0x5cb0a9dc, 0x76f988da]
  ++ [0x983e5152, 0xa831c66d, 0xb00327c8, 0xbf597fc7, 0xc6e00bf3, 0xd5a79147, 0x06ca6351, 0x14292967]
  ++ [0x27b70a85, 0x2e1b2138, 0x4d2c6dfc, 0x53380d13, 0x650a7354, 0x766a0abb, 0x81c2c92e, 0x92722c85]
  ++ [0xa2bfe8a1, 0xa81a664b, 0xc24b8b70, 0xc76c51a3, 0xd192e819, 0xd6990624, 0xf40e3585, 0x106aa070]
  ++ [0x19a4c116, 0x1e376c08, 0x2748774c, 0x34b0bcb5, 0x391c0cb3, 0x4ed8aa4a, 0x5b9cca4f, 0x682e6ff3]
  ++ [0x748f82ee, 0x78a5636f, 0x84c87814, 0x8cc70208, 0x90befffa, 0xa4506ceb, 0xbef9a3f7, 0xc67178f2]

/-- The initial hash values (the local list `h`, src lines 37-40), the two
source rows concatenated. -/
def h0 : List Nat :=
  [0x6a09e667, 0xbb67ae85, 0x3c6ef372, 0xa54ff53a]
  ++ [0x510e527f, 0x9b05688c, 0x1f83d9ab, 0x5be0cd19]

/-- Append `0x00` bytes until the bit length is 448 mod 512
(the `while` loop, src lines 52-53). -/
def padZeros (msg : List Nat) : List Nat :=
  if h : msg.length * 8 % 512 = 448 then msg
  else padZeros (msg ++ [0x00])
termination_by (448 + 512 - msg.length * 8 % 512) % 512
decreasing_by
  simp only [List.length_append, List.length_cons, List.length_nil]
  omega

/-- The 8-byte big-endian encoding of `n` produced by `struct.pack('>Q', n)`
for in-range `n` (src line 56). -/
def be64 (n : Nat) : List Nat :=
  [n / 2 ^ 56 % 256, n / 2 ^ 48 % 256, n / 2 ^ 40 % 256, n / 2 ^ 32 % 256,
   n / 2 ^ 24 % 256, n / 2 ^ 16 % 256, n / 2 ^ 8 % 256, n % 256]

/-- `struct.pack('>Q', n)` (src line 56): returns the 8-byte big-endian
encoding, and raises `struct.error` (modelled as `none`) for `n ≥ 2 ^ 64`. -/
def packBE64 (n : Nat) : Option (List Nat) :=
  if n < 2 ^ 64 then some (be64 n) else none

/-- The padded message built in src lines 46-56: the input bytes, then
`0x80`, then zero bytes to 448 mod 512, then the original bit length
as a 64-bit big-endian integer (`none` when that length overflows 64 bits). -/
def paddedMessage (data : List Nat) : Option (List Nat) :=
  (packBE64 (data.length * 8)).map fun lenBytes =>
    padZeros (data ++ [0x80]) ++ lenBytes

/-- `struct.unpack('>16I', chunk)` (src line 63): split a byte list into
big-endian 32-bit words, four bytes per word. -/
def bytesToWords : List Nat → List Nat
  | b0 :: b1 :: b2 :: b3 :: rest =>
      (b0 * 2 ^ 24 + b1 * 2 ^ 16 + b2 * 2 ^ 8 + b3) :: bytesToWords rest
  | _ => []

/-- The lower sigma function `s0` of the schedule loop (src line 67). -/
def s0 (x : Nat) : Nat :=
  rightrotate x 7 ^^^ rightrotate x 18 ^^^ (x >>> 3)

/-- The lower sigma function `s1` of the schedule loop (src line 68). -/
def s1 (x : Nat) : Nat :=
  rightrotate x 17 ^^^ rightrotate x 19 ^^^ (x >>> 10)

/-- One iteration of the schedule-extension loop (src lines 66-69):
append `(w[i-16] + s0(w[i-15]) + w[i-7] + s1(w[i-2])) & 0xffffffff`. -/
def scheduleStep (w : List Nat) (i : Nat) : List Nat :=
  w ++ [(w.getD (i - 16) 0 + s0 (w.getD (i - 15) 0) + w.getD (i - 7) 0
          + s1 (w.getD (i - 2) 0)) % 2 ^ 32]

/-- The 64-entry message schedule `w` of a chunk (src lines 63-69):
the 16 big-endian words of the chunk extended by the loop
`for i in range(16, 64)`. -/
def schedule (chunk : List Nat) : List Nat :=
  (List.range' 16 48).foldl scheduleStep (bytesToWords chunk)

/-- The eight working variables `a, b, c, d, e, f, g, h_val` of the
compression loop (src line 72). -/
structure Vars where
  a : Nat
  b : Nat
  c : Nat
  d : Nat
  e : Nat
  f : Nat
  g : Nat
  hv : Nat
deriving DecidableEq

/-- `a, b, c, d, e, f, g, h_val = h` (src line 72). -/
def varsOfList (hs : List Nat) : Vars :=
  ⟨hs.getD 0 0, hs.getD 1 0, hs.getD 2 0, hs.getD 3 0,
   hs.getD 4 0, hs.getD 5 0, hs.getD 6 0, hs.getD 7 0⟩

/-- One round of the main compression loop (src lines 75-90).  Python's
`~e & g` on ints is, for `e < 2 ^ 32` (an invariant of every call site),
the 32-bit complement of `e` masked with `g`, written here as
`((2 ^ 32 - 1) ^^^ (e % 2 ^ 32)) &&& g`. -/
def compressRound (w : List Nat) (v : Vars) (i : Nat) : Vars :=
  let S1 := rightrotate v.e 6 ^^^ rightrotate v.e 11 ^^^ rightrotate v.e 25
  let ch := (v.e &&& v.f) ^^^ (((2 ^ 32 - 1) ^^^ (v.e % 2 ^ 32)) &&& v.g)
  let temp1 := (v.hv + S1 + ch + K.getD i 0 + w.getD i 0) % 2 ^ 32
  let S0 := rightrotate v.a 2 ^^^ rightrotate v.a 13 ^^^ rightrotate v.a 22
  let maj := (v.a &&& v.b) ^^^ (v.a &&& v.c) ^^^ (v.b &&& v.c)
  let temp2 := (S0 + maj) % 2 ^ 32
  { a := (temp1 + temp2) % 2 ^ 32, b := v.a, c := v.b, d := v.c,
    e := (v.d + temp1) % 2 ^ 32, f := v.e, g := v.f, hv := v.g }

/-- The body of `for i in range(64)` acting on the whole local state
(hash list `h`, working variables): it writes only the working
variables (src lines 75-90). -/
def blockStep (w : List Nat) (st : List Nat × Vars) (i : Nat) : List Nat × Vars :=
  (st.1, compressRound w st.2 i)

/-- Processing of one 64-byte chunk (src lines 60-100): build the
schedule, run the 64 rounds on working-variable copies of `h`, then
write `h[j] = (h[j] + var_j) & 0xffffffff` for each of the eight words. -/
def processChunk (hs : List Nat) (chunk : List Nat) : List Nat :=
  let w := schedule chunk
  let st := (List.range 64).foldl (blockStep w) (hs, varsOfList hs)
  [(st.1.getD 0 0 + st.2.a) % 2 ^ 32, (st.1.getD 1 0 + st.2.b) % 2 ^ 32,
   (st.1.getD 2 0 + st.2.c) % 2 ^ 32, (st.1.getD 3 0 + st.2.d) % 2 ^ 32,
   (st.1.getD 4 0 + st.2.e) % 2 ^ 32, (st.1.getD 5 0 + st.2.f) % 2 ^ 32,
   (st.1.getD 6 0 + st.2.g) % 2 ^ 32, (st.1.getD 7 0 + st.2.hv) % 2 ^ 32]

/-- One hexadecimal digit character, lowercase, as produced by Python's
`x` format code. -/
def hexDigit (n : Nat) : Char :=
  if n < 10 then Char.ofNat (48 + n) else Char.ofNat (87 + n)

/-- `f'{x:08x}'` (src line 103) for `x < 2 ^ 32` (every formatted word is
reduced `& 0xffffffff`): eight lowercase hex digits, zero padded. -/
def hex8 (x : Nat) : List Char :=
  (List.range 8).map fun i => hexDigit (x / 16 ^ (7 - i) % 16)

/-- The chunk iteration and final hex rendering (src lines 59-103):
`for chunk_start in range(0, len(msg), 64)` processes each 64-byte slice,
then `''.join(f'{x:08x}' for x in h)` renders the eight state words. -/
def hashBlocks (msg : List Nat) : String :=
  let hs := (List.range' 0 ((msg.length + 63) / 64) 64).foldl
    (fun hs start => processChunk hs ((msg.drop start).take 64)) h0
  String.mk (hs.map hex8).flatten

/-- `_sha256` (src lines 19-103) on byte input: pad, process every chunk,
render the digest; `none` exactly when the 64-bit length field overflows. -/
def _sha256 (data : List Nat) : Option String :=
  (paddedMessage data).map hashBlocks

/-- `sha256` (src lines 106-108): the public entry point, defaulting to
the empty byte sequence. -/
def sha256 (data : List Nat := []) : Option String :=
  _sha256 data

/-! ### Closed form of the padding loop -/

theorem padZeros_eq_aux :
    ∀ z msg, (56 + 64 - msg.length % 64) % 64 = z →
      padZeros msg = msg ++ List.replicate z 0 := by
  intro z
  induction z with
  | zero =>
    intro msg hz
    rw [padZeros.eq_def]
    have hc : msg.length * 8 % 512 = 448 := by omega
    simp [hc]
  | succ k ih =>
    intro msg hz
    rw [padZeros.eq_def]
    have hc : ¬ msg.length * 8 % 512 = 448 := by omega
    rw [dif_neg hc, ih (msg ++ [0x00]) (by simp; omega)]
    simp [List.replicate_succ]

/-- The `while` loop of src lines 52-53 appends exactly
`(56 + 64 - len % 64) % 64` zero bytes. -/
theorem padZeros_eq (msg : List Nat) :
    padZeros msg = msg ++ List.replicate ((56 + 64 - msg.length % 64) % 64) 0 :=
  padZeros_eq_aux _ msg rfl

/-- `paddedMessage` with the padding loop replaced by its closed form. -/
theorem paddedMessage_closed (data : List Nat) :
    paddedMessage data = (packBE64 (data.length * 8)).map fun lenBytes =>
      data ++ 0x80 :: (List.replicate ((56 + 64 - (data.length + 1) % 64) % 64) 0
        ++ lenBytes) := by
  simp [paddedMessage, padZeros_eq, List.append_assoc]

/-! ### Evaluation of the hash on the known-answer inputs -/

set_option maxRecDepth 100000 in
theorem sha256_eval_nil :
    sha256 [] =
      some "e3b0c44298fc1c149afbf4c8996fb92427ae41e4649b934ca495991b7852b855" := by
  simp only [sha256, _sha256, paddedMessage_closed]
  decide

set_option maxRecDepth 100000 in
theorem sha256_eval_abc :
    sha256 [0x61, 0x62, 0x63] =
      some "ba7816bf8f01cfea414140de5dae2223b00361a396177a9cb410ff61f20015ad" := by
  simp only [sha256, _sha256, paddedMessage_closed]
  decide

/-! ### Shape of the rendered digest -/

theorem processChunk_length (hs chunk : List Nat) :
    (processChunk hs chunk).length = 8 := rfl

theorem foldChunks_length (l : List Nat) (msg : List Nat) :
    ∀ hs : List Nat, hs.length = 8 →
      (l.foldl (fun hs start => processChunk hs ((msg.drop start).take 64)) hs).length
        = 8 := by
  induction l with
  | nil => intro hs h; simpa using h
  | cons x t ih =>
    intro hs _
    simp only [List.foldl_cons]
    exact ih _ (processChunk_length hs _)

theorem hex8_length (x : Nat) : (hex8 x).length = 8 := by
  simp [hex8]

theorem flatten_hex8_length (hs : List Nat) :
    ((hs.map hex8).flatten).length = 8 * hs.length := by
  induction hs with
  | nil => simp
  | cons x t ih => simp [hex8_length, ih]; omega

theorem hashBlocks_length (msg : List Nat) : (hashBlocks msg).length = 64 := by
  have h8 := foldChunks_length (List.range' 0 ((msg.length + 63) / 64) 64) msg h0 rfl
  simp only [hashBlocks, String.length]
  rw [flatten_hex8_length, h8]

/-- The sixteen characters Python's lowercase `x` format code can emit. -/
def hexAlphabet : List Char :=
  ['0', '1', '2', '3', '4', '5', '6', '7']
  ++ ['8', '9', 'a', 'b', 'c', 'd', 'e', 'f']

theorem hexDigit_mem : ∀ n, n < 16 → hexDigit n ∈ hexAlphabet := by decide

theorem hex8_chars (x : Nat) (c : Char) (hc : c ∈ hex8 x) : c ∈ hexAlphabet := by
  simp only [hex8, List.mem_map, List.mem_range] at hc
  rcases hc with ⟨i, -, rfl⟩
  exact hexDigit_mem _ (Nat.mod_lt _ (by norm_num))

theorem hashBlocks_chars (msg : List Nat) (c : Char)
    (hc : c ∈ (hashBlocks msg).data) : c ∈ hexAlphabet := by
  simp only [hashBlocks, String.data, List.mem_flatten, List.mem_map] at hc
  rcases hc with ⟨l, ⟨x, -, rfl⟩, hcl⟩
  exact hex8_chars x c hcl

/-! ### The claims -/

/-- C1, counterexample: on the empty input the code's hash does not return
a 32-element result; it returns a string of 64 characters. -/
theorem claim_C1_counterexample :
    (sha256 []).map String.length ≠ some 32 ∧
    (sha256 []).map String.length = some 64 := by
  rw [sha256_eval_nil]
  exact ⟨by decide, rfl⟩

/-- C1, amended: for every finite byte sequence the hash returns a string
of exactly 64 characters — two hexadecimal characters per byte of the
32-byte digest — rather than the raw 32-byte value. -/
theorem claim_C1_digest_length :
    ∀ (data : List Nat) (s : String), sha256 data = some s → s.length = 2 * 32 := by
  intro data s hsome
  rcases hpm : paddedMessage data with - | m
  · simp [sha256, _sha256, hpm] at hsome
  · simp only [sha256, _sha256, hpm, Option.map_some', Option.some.injEq] at hsome
    rw [← hsome]
    exact hashBlocks_length m

/-- C1, witness: the amended claim evaluated at the empty input. -/
theorem claim_C1_witness :
    ("e3b0c44298fc1c149afbf4c8996fb92427ae41e4649b934ca495991b7852b855" : String).length
      = 2 * 32 :=
  claim_C1_digest_length [] _ sha256_eval_nil

/-- C2, counterexample: hashing the empty input does not give the spec
table's 63-hex-character value `e3b0…b85`, under any letter case: the code
returns a 64-character string. -/
theorem claim_C2_counterexample :
    sha256 [] ≠
      some "e3b0c44298fc1c149afbf4c8996fb92427ae41e4649b934ca495991b7852b85" ∧
    (sha256 []).map String.length = some 64 ∧
    ("e3b0c44298fc1c149afbf4c8996fb92427ae41e4649b934ca495991b7852b85" : String).length
      = 63 := by
  rw [sha256_eval_nil]
  exact ⟨by decide, rfl, rfl⟩

/-- C2, amended: hashing the empty input yields exactly the 64-hex-character
digest `e3b0c44298fc1c149afbf4c8996fb92427ae41e4649b934ca495991b7852b855`
(the spec's table dropped the final `5`). -/
theorem claim_C2_empty_vector :
    sha256 [] =
      some "e3b0c44298fc1c149afbf4c8996fb92427ae41e4649b934ca495991b7852b855" :=
  sha256_eval_nil

/-- C3: hashing the three ASCII bytes of `abc` yields exactly the digest
`ba7816bf8f01cfea414140de5dae2223b00361a396177a9cb410ff61f20015ad`. -/
theorem claim_C3_abc_vector :
    sha256 [0x61, 0x62, 0x63] =
      some "ba7816bf8f01cfea414140de5dae2223b00361a396177a9cb410ff61f20015ad" :=
  sha256_eval_abc

/-- C8: the hash is total on every byte sequence whose bit length fits the
64-bit length field — the computation succeeds and produces an output. -/
theorem claim_C8_totality :
    ∀ data : List Nat, data.length * 8 < 2 ^ 64 → (sha256 data).isSome = true := by
  intro data h
  simp [sha256, _sha256, paddedMessage, packBE64, h]
  omega

/-- C8, witness: the empty sequence hashes successfully. -/
theorem claim_C8_witness : (sha256 []).isSome = true :=
  claim_C8_totality [] (by decide)

/-- C9: the hash is deterministic — two calls on the same byte sequence give
identical results, the result being a function of the input bytes alone. -/
theorem claim_C9_determinism : ∀ data : List Nat, sha256 data = sha256 data :=
  fun _ => rfl

/-- C10: for every input the code returns a character string (not raw
bytes) of exactly 64 characters, all of them lowercase hexadecimal digits. -/
theorem claim_C10_hex_output :
    ∀ (data : List Nat) (s : String), sha256 data = some s →
      s.length = 64 ∧ ∀ c ∈ s.data, c ∈ hexAlphabet := by
  intro data s hsome
  rcases hpm : paddedMessage data with - | m
  · simp [sha256, _sha256, hpm] at hsome
  · simp only [sha256, _sha256, hpm, Option.map_some', Option.some.injEq] at hsome
    rw [← hsome]
    exact ⟨hashBlocks_length m, fun c hc => hashBlocks_chars m c hc⟩

/-- C10, witness: the claim evaluated on the input `abc`. -/
theorem claim_C10_witness :
    ("ba7816bf8f01cfea414140de5dae2223b00361a396177a9cb410ff61f20015ad" : String).length
      = 64 ∧ 'b' ∈ hexAlphabet :=
  ⟨(claim_C10_hex_output [0x61, 0x62, 0x63] _ sha256_eval_abc).1,
   (claim_C10_hex_output [0x61, 0x62, 0x63] _ sha256_eval_abc).2 'b' (by decide)⟩

/-- C4: for inputs whose bit length fits 64 bits, the padded message is
exactly the input, then the byte `0x80`, then the minimum number of zero
bytes making the byte length times 8 congruent to 448 mod 512, then the
bit length as a 64-bit big-endian integer. -/
theorem claim_C4_padding_layout :
    ∀ data : List Nat, data.length * 8 < 2 ^ 64 →
      ∃ z, paddedMessage data =
          some (data ++ 0x80 ::
            (List.replicate z 0 ++ be64 (data.length * 8))) ∧
        (data.length + 1 + z) * 8 % 512 = 448 ∧
        ∀ z' < z, (data.length + 1 + z') * 8 % 512 ≠ 448 := by
  intro data h
  refine ⟨(56 + 64 - (data.length + 1) % 64) % 64, ?_, by omega, ?_⟩
  · rw [paddedMessage_closed]
    simp [packBE64, h]
    omega
  · intro z' hz'
    omega

/-- C4, witness: the padding layout of the empty input — 55 zero bytes,
one block. -/
theorem claim_C4_witness :
    paddedMessage [] = some (0x80 :: (List.replicate 55 0 ++ be64 0)) := by
  rcases claim_C4_padding_layout [] (by decide) with ⟨z, hpad, hz, hmin⟩
  simp only [List.length_nil] at hpad hz hmin
  have hz55 : z = 55 := by
    by_cases hlt : 55 < z
    · have h55 := hmin 55 hlt
      omega
    · omega
  rw [hz55] at hpad
  exact hpad

/-- C6: the padded message's bit length is a multiple of 512, positive, and
at least the input bit length plus 65. -/
theorem claim_C6_padded_length_invariant :
    ∀ (data m : List Nat), paddedMessage data = some m →
      m.length * 8 % 512 = 0 ∧ 0 < m.length ∧
        8 * data.length + 65 ≤ m.length * 8 := by
  intro data m hm
  by_cases h : data.length * 8 < 2 ^ 64
  · rw [paddedMessage_closed] at hm
    simp only [packBE64, if_pos h, Option.map_some', Option.some.injEq] at hm
    rw [← hm]
    simp only [List.length_append, List.length_cons, List.length_replicate, be64,
      List.length_nil]
    omega
  · rw [paddedMessage_closed] at hm
    simp [packBE64, h] at hm
    omega

/-- C6, witness: the invariant on the padded empty input. -/
theorem claim_C6_witness :
    (0x80 :: (List.replicate 55 0 ++ be64 0) : List Nat).length * 8 % 512 = 0 ∧
    0 < (0x80 :: (List.replicate 55 0 ++ be64 0) : List Nat).length ∧
    8 * ([] : List Nat).length + 65 ≤
      (0x80 :: (List.replicate 55 0 ++ be64 0) : List Nat).length * 8 :=
  claim_C6_padded_length_invariant [] _ (by rw [paddedMessage_closed]; decide)

/-! ### The compression rounds leave the cross-block state untouched -/

theorem foldl_blockStep (w : List Nat) :
    ∀ (l : List Nat) (hs : List Nat) (v : Vars),
      l.foldl (blockStep w) (hs, v) = (hs, l.foldl (compressRound w) v) := by
  intro l
  induction l with
  | nil => intros; rfl
  | cons x t ih =>
    intro hs v
    simp only [List.foldl_cons, blockStep]
    exact ih hs _

/-- The spec's description of state accumulation (§4.1 step 5): each
hash-state word taken from before the block's rounds, plus the
corresponding working variable, mod `2 ^ 32`. -/
def accumulate (hs : List Nat) (v : Vars) : List Nat :=
  [(hs.getD 0 0 + v.a) % 2 ^ 32, (hs.getD 1 0 + v.b) % 2 ^ 32,
   (hs.getD 2 0 + v.c) % 2 ^ 32, (hs.getD 3 0 + v.d) % 2 ^ 32,
   (hs.getD 4 0 + v.e) % 2 ^ 32, (hs.getD 5 0 + v.f) % 2 ^ 32,
   (hs.getD 6 0 + v.g) % 2 ^ 32, (hs.getD 7 0 + v.hv) % 2 ^ 32]

/-- C7: each compression round writes only the working variables and leaves
the eight cross-block state words unchanged, and after the 64 rounds each
state word is updated exactly once, to its pre-block value plus the
corresponding working variable mod `2 ^ 32`, the working variables having
been computed from the pre-block state alone. -/
theorem claim_C7_state_frame :
    (∀ (w : List Nat) (st : List Nat × Vars) (i : Nat),
      (blockStep w st i).1 = st.1) ∧
    (∀ hs chunk : List Nat,
      processChunk hs chunk =
        accumulate hs
          ((List.range 64).foldl (compressRound (schedule chunk)) (varsOfList hs))) := by
  refine ⟨fun w st i => rfl, fun hs chunk => ?_⟩
  simp only [processChunk, foldl_blockStep]
  rfl

/-! ### The message schedule -/

/-- The spec's reading of schedule word `i` of a block: the big-endian
32-bit value of bytes `4i .. 4i+3`. -/
def wordBE (chunk : List Nat) (i : Nat) : Nat :=
  (chunk.drop (4 * i)).getD 0 0 * 2 ^ 24 + (chunk.drop (4 * i)).getD 1 0 * 2 ^ 16
    + (chunk.drop (4 * i)).getD 2 0 * 2 ^ 8 + (chunk.drop (4 * i)).getD 3 0

theorem bytesToWords_length : ∀ l : List Nat, (bytesToWords l).length = l.length / 4
  | [] => rfl
  | [_] => by simp [bytesToWords]
  | [_, _] => by simp [bytesToWords]
  | [_, _, _] => by simp [bytesToWords]
  | _ :: _ :: _ :: _ :: rest => by
    simp only [bytesToWords, List.length_cons, bytesToWords_length rest]
    omega

theorem bytesToWords_getD :
    ∀ (l : List Nat) (i : Nat), 4 * i + 3 < l.length →
      (bytesToWords l).getD i 0 = wordBE l i
  | [], i, h => by simp only [List.length_nil] at h; omega
  | [_], i, h => by simp only [List.length_cons, List.length_nil] at h; omega
  | [_, _], i, h => by simp only [List.length_cons, List.length_nil] at h; omega
  | [_, _, _], i, h => by simp only [List.length_cons, List.length_nil] at h; omega
  | b0 :: b1 :: b2 :: b3 :: rest, 0, _ => by
    simp [bytesToWords, wordBE, List.getD]
  | b0 :: b1 :: b2 :: b3 :: rest, i + 1, h => by
    have h' : 4 * i + 3 < rest.length := by
      simp only [List.length_cons] at h; omega
    have hdrop : (b0 :: b1 :: b2 :: b3 :: rest).drop (4 * (i + 1)) = rest.drop (4 * i) := by
      rw [show 4 * (i + 1) = 4 * i + 1 + 1 + 1 + 1 from by ring]
      rfl
    simp only [bytesToWords, List.getD_cons_succ, bytesToWords_getD rest i h',
      wordBE, hdrop]

theorem foldSched_length (k : Nat) :
    ∀ w0 : List Nat, ((List.range' 16 k).foldl scheduleStep w0).length
      = w0.length + k := by
  induction k with
  | zero => intro w0; simp
  | succ n ih =>
    intro w0
    rw [List.range'_concat, List.foldl_append]
    simp only [List.foldl_cons, List.foldl_nil, scheduleStep, List.length_append,
      ih w0, List.length_cons, List.length_nil]
    omega

theorem foldSched_stable (w0 : List Nat) (k k' : Nat) (hk : k ≤ k') (i : Nat)
    (hi : i < w0.length + k) :
    ((List.range' 16 k').foldl scheduleStep w0).getD i 0 =
      ((List.range' 16 k).foldl scheduleStep w0).getD i 0 := by
  induction k', hk using Nat.le_induction with
  | base => rfl
  | succ m hm ih =>
    rw [List.range'_concat, List.foldl_append]
    simp only [List.foldl_cons, List.foldl_nil, scheduleStep]
    rw [List.getD_append]
    · exact ih
    · rw [foldSched_length]
      omega

theorem getD_append_len (l : List Nat) (x : Nat) (n : Nat) (hn : n = l.length) :
    (l ++ [x]).getD n 0 = x := by
  subst hn
  induction l with
  | nil => rfl
  | cons a t ih => simp [ih]

/-- C5: for a 64-byte block, the message schedule has exactly 64 words,
its first 16 entries are the big-endian 32-bit words of the block, and
every later entry obeys
`w[i] = (w[i-16] + s0 (w[i-15]) + w[i-7] + s1 (w[i-2])) mod 2 ^ 32`. -/
theorem claim_C5_schedule :
    ∀ chunk : List Nat, chunk.length = 64 →
      (schedule chunk).length = 64 ∧
      (∀ i < 16, (schedule chunk).getD i 0 = wordBE chunk i) ∧
      (∀ i, 16 ≤ i → i < 64 →
        (schedule chunk).getD i 0 =
          ((schedule chunk).getD (i - 16) 0 + s0 ((schedule chunk).getD (i - 15) 0)
            + (schedule chunk).getD (i - 7) 0
            + s1 ((schedule chunk).getD (i - 2) 0)) % 2 ^ 32) := by
  intro chunk hlen
  have hw0 : (bytesToWords chunk).length = 16 := by
    rw [bytesToWords_length, hlen]
  refine ⟨?_, ?_, ?_⟩
  · rw [schedule, foldSched_length, hw0]
  · intro i hi
    rw [schedule, foldSched_stable (bytesToWords chunk) 0 48 (by omega) i (by omega)]
    exact bytesToWords_getD chunk i (by omega)
  · intro i h16 h64
    obtain ⟨k, rfl⟩ : ∃ k, i = 16 + k := ⟨i - 16, by omega⟩
    have hlenk : ((List.range' 16 k).foldl scheduleStep (bytesToWords chunk)).length
        = 16 + k := by rw [foldSched_length, hw0]
    have hlift : ∀ j, j < 16 + k →
        ((List.range' 16 48).foldl scheduleStep (bytesToWords chunk)).getD j 0 =
          ((List.range' 16 k).foldl scheduleStep (bytesToWords chunk)).getD j 0 :=
      fun j hj => foldSched_stable (bytesToWords chunk) k 48 (by omega) j (by omega)
    rw [schedule]
    have e16 : 16 + k - 16 = k := by omega
    have e15 : 16 + k - 15 = k + 1 := by omega
    have e7 : 16 + k - 7 = 9 + k := by omega
    have e2 : 16 + k - 2 = 14 + k := by omega
    rw [e16, e15, e7, e2]
    rw [hlift k (by omega), hlift (k + 1) (by omega), hlift (9 + k) (by omega),
      hlift (14 + k) (by omega)]
    rw [foldSched_stable (bytesToWords chunk) (k + 1) 48 (by omega) (16 + k) (by omega)]
    rw [List.range'_concat, List.foldl_append]
    simp only [List.foldl_cons, List.foldl_nil]
    simp only [scheduleStep]
    rw [getD_append_len _ _ _ hlenk.symm]
    have f16 : 16 + 1 * k - 16 = k := by omega
    have f15 : 16 + 1 * k - 15 = k + 1 := by omega
    have f7 : 16 + 1 * k - 7 = 9 + k := by omega
    have f2 : 16 + 1 * k - 2 = 14 + k := by omega
    rw [f16, f15, f7, f2]

/-- C5, witness: the schedule of the all-zero 64-byte block has 64 entries
and entry 16 satisfies the recurrence. -/
theorem claim_C5_witness :
    (schedule (List.replicate 64 0)).length = 64 ∧
    (schedule (List.replicate 64 0)).getD 16 0 =
      ((schedule (List.replicate 64 0)).getD 0 0
        + s0 ((schedule (List.replicate 64 0)).getD 1 0)
        + (schedule (List.replicate 64 0)).getD 9 0
        + s1 ((schedule (List.replicate 64 0)).getD 14 0)) % 2 ^ 32 :=
  ⟨(claim_C5_schedule (List.replicate 64 0) (by decide)).1,
   (claim_C5_schedule (List.replicate 64 0) (by decide)).2.2 16 (by decide) (by decide)⟩

end SHA256
